import Mathlib

/-!
Verification of the Rayleigh-Benard convection solver (`main.py`).

The development shallowly embeds the numerical core of the program: the
sparse linear solves are modelled over `ℚ` by an exact solver based on the
adjugate (returning `none` exactly when the system matrix is singular,
matching the fatal `RuntimeError` raised by the SuperLU factorization),
fields are functions `Fin (nx * ny) → ℚ` in the column-major layout used
by the program (the `y` index varies fastest), and the per-step update of
the integrator loop of `main.py` is translated into a step function on
simulation states.  Components of the program whose source files are not
available (`discretizationUtils`, `operators`, `matrices`, `config`) are
modelled from the specification and marked as such in their doc comments.
-/

set_option maxHeartbeats 1600000

namespace RayleighBenard

/-! ### Exact model of the sparse linear solver

`scipy.sparse.linalg.spsolve` and the solver closures returned by
`scipy.sparse.linalg.factorized` solve `A x = b` for a square sparse `A`
and raise on an exactly singular matrix.  Over `ℚ` this contract is
captured by the adjugate formula, with `none` in the singular case. -/

/-- Exact-arithmetic model of a one-shot sparse linear solve `A x = b`:
`none` when `A` is singular, otherwise the unique solution. -/
def solveLin {n : ℕ} (A : Matrix (Fin n) (Fin n) ℚ) (b : Fin n → ℚ) :
    Option (Fin n → ℚ) :=
  if A.det = 0 then none else some (A.det⁻¹ • A.adjugate.mulVec b)

theorem solveLin_det_ne {n : ℕ} {A : Matrix (Fin n) (Fin n) ℚ} {b x : Fin n → ℚ}
    (h : solveLin A b = some x) : A.det ≠ 0 := by
  intro hd
  rw [solveLin, if_pos hd] at h
  exact Option.noConfusion h

theorem solveLin_det_zero {n : ℕ} {A : Matrix (Fin n) (Fin n) ℚ} (b : Fin n → ℚ)
    (h : A.det = 0) : solveLin A b = none := by
  rw [solveLin, if_pos h]

theorem solveLin_of_det_ne {n : ℕ} {A : Matrix (Fin n) (Fin n) ℚ} (b : Fin n → ℚ)
    (h : A.det ≠ 0) : solveLin A b = some (A.det⁻¹ • A.adjugate.mulVec b) := by
  rw [solveLin, if_neg h]

/-- The solver really solves the system: a `some` result satisfies `A x = b`. -/
theorem solveLin_sound {n : ℕ} {A : Matrix (Fin n) (Fin n) ℚ} {b x : Fin n → ℚ}
    (h : solveLin A b = some x) : A.mulVec x = b := by
  have hd : A.det ≠ 0 := solveLin_det_ne h
  rw [solveLin, if_neg hd] at h
  obtain rfl : A.det⁻¹ • A.adjugate.mulVec b = x := Option.some.inj h
  rw [Matrix.mulVec_smul, Matrix.mulVec_mulVec, Matrix.mul_adjugate,
    Matrix.smul_mulVec_assoc, Matrix.one_mulVec, smul_smul,
    inv_mul_cancel₀ hd, one_smul]

/-- The solution returned by the solver is the unique one. -/
theorem solveLin_unique {n : ℕ} {A : Matrix (Fin n) (Fin n) ℚ} {b x y : Fin n → ℚ}
    (h : solveLin A b = some x) (hy : A.mulVec y = b) : y = x := by
  have hd : A.det ≠ 0 := solveLin_det_ne h
  have hx : A.mulVec x = b := solveLin_sound h
  by_contra hne
  refine hd (Matrix.exists_mulVec_eq_zero_iff.mp ⟨y - x, sub_ne_zero.mpr hne, ?_⟩)
  rw [Matrix.mulVec_sub, hy, hx, sub_self]

theorem solveLin_zero_rhs {n : ℕ} {A : Matrix (Fin n) (Fin n) ℚ} {x : Fin n → ℚ}
    (h : solveLin A 0 = some x) : x = 0 := by
  have hd : A.det ≠ 0 := solveLin_det_ne h
  rw [solveLin, if_neg hd] at h
  obtain rfl : A.det⁻¹ • A.adjugate.mulVec 0 = x := Option.some.inj h
  rw [Matrix.mulVec_zero, smul_zero]

theorem solveLin_one {n : ℕ} (b : Fin n → ℚ) :
    solveLin (1 : Matrix (Fin n) (Fin n) ℚ) b = some b := by
  rw [solveLin, if_neg (by simp [Matrix.det_one])]
  simp [Matrix.det_one, Matrix.adjugate_one, Matrix.one_mulVec]

/-! ### Configuration (`main.py` lines 14-25)

The program writes the run parameters into the shared `config` module
before the run starts and never changes them afterwards. -/

namespace config

def dt : ℚ := 0.01

def nt : ℕ := 3000

def ny : ℕ := 20

def nx : ℕ := 40

def dy : ℚ := 1 / ((ny : ℚ) - 1)

def dx : ℚ := 2 / ((ny : ℚ) - 1)

end config

/-- Physical parameter `sqrtRa` (`main.py` line 32). -/
def sqrtRa : ℚ := 7

/-- Bottom Dirichlet temperature (`main.py` line 33). -/
def Tbottom : ℚ := 1

/-- Top Dirichlet temperature (`main.py` line 34). -/
def Ttop : ℚ := 0

/-! ### Layout converter -/

/-- Modelled from the spec: `discretizationUtils.fieldToVec` (the module is
not part of the available sources).  A grid field (`ny` rows indexed by
vertical position, `nx` columns) is flattened column-major into a vector of
length `nx * ny`, the `y` index varying fastest, as required by the strided
boundary accesses of `main.py` (bottom row at indices `0, ny, 2·ny, ...`). -/
def fieldToVec {ny nx : ℕ} (g : Fin ny → Fin nx → ℚ) : Fin (nx * ny) → ℚ :=
  fun k => g (finProdFinEquiv.symm k).2 (finProdFinEquiv.symm k).1

/-- Modelled from the spec: `discretizationUtils.vecToField`, the inverse
reshape of `fieldToVec`. -/
def vecToField {ny nx : ℕ} (v : Fin (nx * ny) → ℚ) : Fin ny → Fin nx → ℚ :=
  fun y x => v (finProdFinEquiv (x, y))

/-- C9: the layout converters are exact mutual inverses: converting a grid
field to vector form and back is the identity, and so is converting a
vector to grid form and back (both are pure reshapes). -/
theorem layout_roundtrip_exact :
    ∀ (ny nx : ℕ) (g : Fin ny → Fin nx → ℚ) (v : Fin (nx * ny) → ℚ),
      vecToField (fieldToVec g) = g ∧ fieldToVec (vecToField v) = v := by
  intro ny nx g v
  constructor
  · funext y x
    simp [fieldToVec, vecToField]
  · funext k
    simp only [fieldToVec, vecToField]
    exact congrArg v (finProdFinEquiv.apply_symm_apply k)

/-- C6: both grid spacings are derived from the vertical resolution alone:
`dy = 1/(ny-1)` and `dx = 2/(ny-1)`, hence `dx = 2·dy`; for the configured
`ny = 20`, `nx = 40` this gives `dx = 2/19`, which differs from the value
`2/(nx-1)` an `nx`-based derivation would give. -/
theorem grid_spacing_from_ny_only :
    config.dy = 1 / ((config.ny : ℚ) - 1) ∧
    config.dx = 2 / ((config.ny : ℚ) - 1) ∧
    config.dx = 2 * config.dy ∧
    config.dx = 2 / 19 ∧
    config.dx ≠ 2 / ((config.nx : ℚ) - 1) := by
  refine ⟨rfl, rfl, ?_, ?_, ?_⟩ <;> norm_num [config.dx, config.dy, config.ny, config.nx]

/-! ### The stream-function elimination mask (`main.py` lines 66-71) -/

/-- The diagonal of the elimination mask, translated from the slice
assignments of `main.py`: start from all ones, zero the first `ny` entries
(`[0:ny]`), the last `ny` entries (`[-ny:]`), every `ny`-th entry from `ny`
(`[ny::ny]`) and every `ny`-th entry from `ny - 1` (`[ny-1::ny]`). -/
def psiElimVec (ny nx : ℕ) : Fin (nx * ny) → ℚ := fun k =>
  if k.val < ny then 0
  else if nx * ny - ny ≤ k.val then 0
  else if ny ≤ k.val ∧ k.val % ny = 0 then 0
  else if ny - 1 ≤ k.val ∧ k.val % ny = ny - 1 then 0
  else 1

/-- `psiElim = sparse.csc_matrix(sparse.diags(psiElim, 0))`. -/
def psiElim (ny nx : ℕ) : Matrix (Fin (nx * ny)) (Fin (nx * ny)) ℚ :=
  Matrix.diagonal (psiElimVec ny nx)

/-- The source's zeroed index set coincides with the boundary-row set named
by the spec. -/
theorem psiElimVec_eq_boundary_indicator (ny nx : ℕ) (k : Fin (nx * ny)) :
    psiElimVec ny nx k =
      if k.val < ny ∨ nx * ny - ny ≤ k.val ∨ k.val % ny = 0 ∨ k.val % ny = ny - 1
      then 0 else 1 := by
  have hiff :
      (k.val < ny ∨ nx * ny - ny ≤ k.val ∨ k.val % ny = 0 ∨ k.val % ny = ny - 1) ↔
      (k.val < ny ∨ nx * ny - ny ≤ k.val ∨ (ny ≤ k.val ∧ k.val % ny = 0) ∨
        (ny - 1 ≤ k.val ∧ k.val % ny = ny - 1)) := by
    constructor
    · rintro (h | h | h | h)
      · exact Or.inl h
      · exact Or.inr (Or.inl h)
      · rcases lt_or_le k.val ny with hlt | hle
        · exact Or.inl hlt
        · exact Or.inr (Or.inr (Or.inl ⟨hle, h⟩))
      · exact Or.inr (Or.inr (Or.inr ⟨h ▸ Nat.mod_le k.val ny, h⟩))
    · rintro (h | h | ⟨_, h⟩ | ⟨_, h⟩)
      · exact Or.inl h
      · exact Or.inr (Or.inl h)
      · exact Or.inr (Or.inr (Or.inl h))
      · exact Or.inr (Or.inr (Or.inr h))
  rw [psiElimVec]
  by_cases h1 : k.val < ny
  · simp [h1]
  by_cases h2 : nx * ny - ny ≤ k.val
  · simp [h1, h2]
  by_cases h3 : ny ≤ k.val ∧ k.val % ny = 0
  · simp only [if_neg h1, if_neg h2, if_pos h3]
    rw [if_pos (hiff.mpr (Or.inr (Or.inr (Or.inl h3))))]
  by_cases h4 : ny - 1 ≤ k.val ∧ k.val % ny = ny - 1
  · simp only [if_neg h1, if_neg h2, if_neg h3, if_pos h4]
    rw [if_pos (hiff.mpr (Or.inr (Or.inr (Or.inr h4))))]
  · simp only [if_neg h1, if_neg h2, if_neg h3, if_neg h4]
    rw [if_neg]
    intro hc
    rcases hiff.mp hc with h | h | h | h
    · exact h1 h
    · exact h2 h
    · exact h3 h
    · exact h4 h

/-- C4: applying the elimination mask to any vector zeroes exactly the
boundary-row entries — the first `ny` indices, the last `ny` indices, and
every index congruent to `0` or `ny - 1` modulo `ny` — and leaves every
other entry unchanged. -/
theorem psiElim_zeroes_exactly_boundary_rows :
    ∀ (ny nx : ℕ) (x : Fin (nx * ny) → ℚ) (k : Fin (nx * ny)),
      (psiElim ny nx).mulVec x k =
        if k.val < ny ∨ nx * ny - ny ≤ k.val ∨ k.val % ny = 0 ∨ k.val % ny = ny - 1
        then 0 else x k := by
  intro ny nx x k
  rw [psiElim, Matrix.mulVec_diagonal, psiElimVec_eq_boundary_indicator]
  by_cases h : k.val < ny ∨ nx * ny - ny ≤ k.val ∨ k.val % ny = 0 ∨ k.val % ny = ny - 1
  · rw [if_pos h, if_pos h, zero_mul]
  · rw [if_neg h, if_neg h, one_mul]

/-! ### Initial conditions (`main.py` lines 48-53) -/

/-- Modelled from `numpy.linspace(Tbottom, Ttop, ny)`: the linear profile
between the two Dirichlet temperatures, indexed by vertical position. -/
def linT : Fin config.ny → ℚ :=
  fun y => Tbottom + (Ttop - Tbottom) * y.val / ((config.ny : ℚ) - 1)

/-- The initial temperature grid field: the linear profile repeated over
all columns, then `startT[2:3, int(nx/2-1):int(nx/2+1)] = 0.5`
(with `nx = 40` the slice is row `2`, columns `19` and `20`). -/
def startTField : Fin config.ny → Fin config.nx → ℚ := fun y x =>
  if 2 ≤ y.val ∧ y.val < 3 ∧ config.nx / 2 - 1 ≤ x.val ∧ x.val < config.nx / 2 + 1
  then 0.5 else linT y

/-- `startT = grid.fieldToVec(startT)`. -/
def startT : Fin (config.nx * config.ny) → ℚ := fieldToVec startTField

/-- `startPsi`: the zero grid field, vectorized. -/
def startPsi : Fin (config.nx * config.ny) → ℚ := fieldToVec (fun _ _ => 0)

/-- C10: the run's initial temperature is not the pure linear profile:
the entries at grid row `2`, columns `nx/2 - 1 = 19` and `nx/2 = 20`, are
overwritten with `0.5`, every other entry is the linear interpolation, and
the initial stream function is exactly the zero vector. -/
theorem initial_state_perturbed_profile :
    startT ≠ fieldToVec (fun y _ => linT y) ∧
    (∀ y x, startTField y x =
      if y.val = 2 ∧ (x.val = 19 ∨ x.val = 20) then 0.5 else linT y) ∧
    startPsi = 0 := by
  refine ⟨?_, ?_, ?_⟩
  · intro h
    have h382 := congrFun h ⟨382, by norm_num [config.nx, config.ny]⟩
    rw [startT] at h382
    simp only [fieldToVec, startTField, linT] at h382
    norm_num [finProdFinEquiv, Fin.divNat, Fin.modNat, config.nx, config.ny,
      Tbottom, Ttop] at h382
  · intro y x
    rw [startTField]
    refine if_congr ?_ rfl rfl
    have hx := x.isLt
    have hy := y.isLt
    simp only [config.nx, config.ny] at hx hy ⊢
    omega
  · funext k
    simp [startPsi, fieldToVec]

/-! ### The operator bundle and the per-step update (`main.py` lines 56-61, 180-214)

`main.py` builds the finite-difference operators once before the loop and
consumes them only through matrix-vector algebra, so the integrator is
stated for an arbitrary bundle; the concrete spec-modelled instance for
the configured grid appears further below. -/

/-- The fixed operators and correction vectors of the run
(`main.py` lines 56-61). -/
structure OpSet (ny nx : ℕ) where
  dxOpTemp : Matrix (Fin (nx * ny)) (Fin (nx * ny)) ℚ
  rhsDxOpTemp : Fin (nx * ny) → ℚ
  dyOpTemp : Matrix (Fin (nx * ny)) (Fin (nx * ny)) ℚ
  rhsDyOpTemp : Fin (nx * ny) → ℚ
  dlOpTemp : Matrix (Fin (nx * ny)) (Fin (nx * ny)) ℚ
  rhsDlOpTemp : Fin (nx * ny) → ℚ
  dxOpPsi : Matrix (Fin (nx * ny)) (Fin (nx * ny)) ℚ
  dyOpPsi : Matrix (Fin (nx * ny)) (Fin (nx * ny)) ℚ
  dlOpPsi : Matrix (Fin (nx * ny)) (Fin (nx * ny)) ℚ

/-- Modelled from the spec: `matrices.constructC` (the `matrices` module is
not among the available sources).  Velocities are derived from the stream
function (`u = ∂yΨ`, `v = -∂xΨ`) and the advection-diffusion operator is
`C = diag(u)·∂x + diag(v)·∂y - ∇²`, with the correction vector `rhsC`
folding in the boundary corrections of the temperature operators with the
same scaling. -/
def constructC {ny nx : ℕ} (os : OpSet ny nx) (psi : Fin (nx * ny) → ℚ) :
    Matrix (Fin (nx * ny)) (Fin (nx * ny)) ℚ × (Fin (nx * ny) → ℚ) :=
  let u := os.dyOpPsi.mulVec psi
  let v := -(os.dxOpPsi.mulVec psi)
  (Matrix.diagonal u * os.dxOpTemp + Matrix.diagonal v * os.dyOpTemp - os.dlOpTemp,
   u * os.rhsDxOpTemp + v * os.rhsDyOpTemp - os.rhsDlOpTemp)

/-- The Crank-Nicolson system matrix `I + (dt/2)·C`
(`main.py` lines 190/193). -/
def tempMatrix {ny nx : ℕ} (dt : ℚ) (os : OpSet ny nx) (psi : Fin (nx * ny) → ℚ) :
    Matrix (Fin (nx * ny)) (Fin (nx * ny)) ℚ :=
  1 + (dt / 2) • (constructC os psi).1

/-- The Crank-Nicolson right-hand side `dt·rhsC + (I - (dt/2)·C)·Tn`
(`main.py` lines 191/194). -/
def tempRhs {ny nx : ℕ} (dt : ℚ) (os : OpSet ny nx) (psi T : Fin (nx * ny) → ℚ) :
    Fin (nx * ny) → ℚ :=
  dt • (constructC os psi).2 + (1 - (dt / 2) • (constructC os psi).1).mulVec T

/-- The temperature solve of one step (`main.py` lines 189-194). -/
def stepT {ny nx : ℕ} (dt : ℚ) (os : OpSet ny nx) (psi T : Fin (nx * ny) → ℚ) :
    Option (Fin (nx * ny) → ℚ) :=
  solveLin (tempMatrix dt os psi) (tempRhs dt os psi T)

/-- Dirichlet enforcement on the temperature (`main.py` lines 199-200):
`Tnplus1[0::ny] = Tbottom` then `Tnplus1[ny-1::ny] = Ttop`; the later
assignment wins where the two strided families overlap. -/
def enforceT {ny nx : ℕ} (Tb Tt : ℚ) (T : Fin (nx * ny) → ℚ) : Fin (nx * ny) → ℚ :=
  fun k => if k.val % ny = ny - 1 then Tt else if k.val % ny = 0 then Tb else T k

/-- The right-hand side `-sqrtRa · psiElim · (dxOpTemp·T - rhsDxOpTemp)` of
the stream-function solve (`main.py` lines 204/206). -/
def psiRhs {ny nx : ℕ} (sq : ℚ) (os : OpSet ny nx) (T : Fin (nx * ny) → ℚ) :
    Fin (nx * ny) → ℚ :=
  (-sq) • (psiElim ny nx).mulVec (os.dxOpTemp.mulVec T - os.rhsDxOpTemp)

/-- The stream-function Poisson solve of one step
(`main.py` lines 203-206). -/
def stepPsi {ny nx : ℕ} (sq : ℚ) (os : OpSet ny nx) (T : Fin (nx * ny) → ℚ) :
    Option (Fin (nx * ny) → ℚ) :=
  solveLin os.dlOpPsi (psiRhs sq os T)

/-- Dirichlet enforcement on the stream function
(`main.py` lines 211-214): zero on both horizontal strided families and on
the first and last `ny` entries. -/
def enforcePsi {ny nx : ℕ} (p : Fin (nx * ny) → ℚ) : Fin (nx * ny) → ℚ :=
  fun k =>
    if k.val % ny = 0 ∨ k.val % ny = ny - 1 ∨ k.val < ny ∨ nx * ny - ny ≤ k.val
    then 0 else p k

/-- The evolving simulation state: temperature and stream function in
vector form. -/
structure SimState (ny nx : ℕ) where
  T : Fin (nx * ny) → ℚ
  Psi : Fin (nx * ny) → ℚ

/-- One pass of the time-marching loop body (`main.py` lines 180-214):
assemble `C`, solve for the new temperature, enforce its Dirichlet rows,
solve the Poisson system for the new stream function from the enforced
temperature, enforce its boundary; `none` if a solve hits a singular
matrix. -/
def step {ny nx : ℕ} (dt sq Tb Tt : ℚ) (os : OpSet ny nx) (s : SimState ny nx) :
    Option (SimState ny nx) :=
  (stepT dt os s.Psi s.T).bind fun Tsol =>
    (stepPsi sq os (enforceT Tb Tt Tsol)).bind fun Psol =>
      some ⟨enforceT Tb Tt Tsol, enforcePsi Psol⟩

/-- The time-marching loop: `n` applications of `step`, aborting as soon as
one solve fails. -/
def run {ny nx : ℕ} (dt sq Tb Tt : ℚ) (os : OpSet ny nx) :
    ℕ → SimState ny nx → Option (SimState ny nx)
  | 0, s => some s
  | n + 1, s => (step dt sq Tb Tt os s).bind (run dt sq Tb Tt os n)

/-! ### The flag-guarded factorization paths (`main.py` lines 28-29, 86-91,
189-206) -/

/-- Model of `scipy.sparse.linalg.spsolve` on a square system. -/
def spsolve {n : ℕ} (A : Matrix (Fin n) (Fin n) ℚ) (b : Fin n → ℚ) :
    Option (Fin n → ℚ) :=
  solveLin A b

/-- Model of `scipy.sparse.linalg.factorized`: the LU decomposition of `A`
returned as a solver closure for that matrix. -/
def factorized {n : ℕ} (A : Matrix (Fin n) (Fin n) ℚ) :
    (Fin n → ℚ) → Option (Fin n → ℚ) :=
  fun b => solveLin A b

/-- The loop body as written, with the two `useSuperLUFactorization` flags:
when `useF2` the temperature system is solved through a factorization built
this step, otherwise through `spsolve`; when `useF1` the stream-function
system is solved through `factor1` (the factorization of `dlOpPsi` computed
before the loop), otherwise through `spsolve`. -/
def stepFlags {ny nx : ℕ} (useF1 useF2 : Bool) (dt sq Tb Tt : ℚ) (os : OpSet ny nx)
    (factor1 : (Fin (nx * ny) → ℚ) → Option (Fin (nx * ny) → ℚ))
    (s : SimState ny nx) : Option (SimState ny nx) :=
  (if useF2 then factorized (tempMatrix dt os s.Psi) (tempRhs dt os s.Psi s.T)
   else spsolve (tempMatrix dt os s.Psi) (tempRhs dt os s.Psi s.T)).bind fun Tsol =>
    (if useF1 then factor1 (psiRhs sq os (enforceT Tb Tt Tsol))
     else spsolve os.dlOpPsi (psiRhs sq os (enforceT Tb Tt Tsol))).bind fun Psol =>
      some ⟨enforceT Tb Tt Tsol, enforcePsi Psol⟩

/-- Time marching with the flags: `factor1` is computed once before the
loop starts (`main.py` line 89) and reused in every iteration. -/
def runFlags {ny nx : ℕ} (useF1 useF2 : Bool) (dt sq Tb Tt : ℚ) (os : OpSet ny nx) :
    ℕ → SimState ny nx → Option (SimState ny nx)
  | 0, s => some s
  | n + 1, s =>
    (stepFlags useF1 useF2 dt sq Tb Tt os (factorized os.dlOpPsi) s).bind
      (runFlags useF1 useF2 dt sq Tb Tt os n)

/-! ### Claims about the step relation -/

/-- C1: every successfully computed new temperature vector — before the
Dirichlet overwrite — satisfies the Crank-Nicolson linear system
`(I + (dt/2)·C) · T' = dt·rhsC + (I - (dt/2)·C) · Tn`, where `C, rhsC` are
assembled from the current stream function. -/
theorem temperature_solve_satisfies_crank_nicolson :
    ∀ (ny nx : ℕ) (dt : ℚ) (os : OpSet ny nx) (Psin Tn Tsol : Fin (nx * ny) → ℚ),
      stepT dt os Psin Tn = some Tsol →
      (1 + (dt / 2) • (constructC os Psin).1).mulVec Tsol =
        dt • (constructC os Psin).2 +
          (1 - (dt / 2) • (constructC os Psin).1).mulVec Tn := by
  intro ny nx dt os Psin Tn Tsol h
  exact solveLin_sound h

/-- C2: the new stream function produced by the Poisson solve satisfies
`dlOpPsi · Ψ' = -sqrtRa · psiElim · (dxOpTemp · T' - rhsDxOpTemp)` where
`T'` is the temperature of the new state, i.e. the temperature after the
Dirichlet enforcement of the same step; the stored stream function is its
boundary-enforced version. -/
theorem stream_solve_satisfies_poisson :
    ∀ (ny nx : ℕ) (dt sq Tb Tt : ℚ) (os : OpSet ny nx) (s s₁ : SimState ny nx),
      step dt sq Tb Tt os s = some s₁ →
      ∃ Psol, os.dlOpPsi.mulVec Psol =
          (-sq) • (psiElim ny nx).mulVec (os.dxOpTemp.mulVec s₁.T - os.rhsDxOpTemp)
        ∧ s₁.Psi = enforcePsi Psol := by
  intro ny nx dt sq Tb Tt os s s₁ h
  rw [step] at h
  rcases Option.bind_eq_some.mp h with ⟨Tsol, _, h2⟩
  rcases Option.bind_eq_some.mp h2 with ⟨Psol, hP, h3⟩
  obtain rfl : (⟨enforceT Tb Tt Tsol, enforcePsi Psol⟩ : SimState ny nx) = s₁ :=
    Option.some.inj h3
  exact ⟨Psol, solveLin_sound hP, rfl⟩

/-- Re-applying the temperature enforcement is the identity on enforced
vectors. -/
theorem enforceT_idem {ny nx : ℕ} (Tb Tt : ℚ) (T : Fin (nx * ny) → ℚ) :
    @enforceT ny nx Tb Tt (enforceT Tb Tt T) = enforceT Tb Tt T := by
  funext k
  by_cases h1 : k.val % ny = ny - 1
  · simp [enforceT, h1]
  · by_cases h2 : k.val % ny = 0 <;> simp [enforceT, h1, h2]

/-- Re-applying the stream-function enforcement is the identity on enforced
vectors. -/
theorem enforcePsi_idem {ny nx : ℕ} (p : Fin (nx * ny) → ℚ) :
    @enforcePsi ny nx (enforcePsi p) = enforcePsi p := by
  funext k
  by_cases h : k.val % ny = 0 ∨ k.val % ny = ny - 1 ∨ k.val < ny ∨ nx * ny - ny ≤ k.val
  · simp only [enforcePsi, if_pos h]
  · simp only [enforcePsi, if_neg h]

/-- C3: after every successful step the boundary invariant holds: the new
temperature is `Tbottom` on the bottom-row entries (indices `≡ 0 mod ny`)
and `Ttop` on the top-row entries (indices `≡ ny-1 mod ny`), the new stream
function vanishes on all four boundary edges, and re-applying either
Dirichlet-enforcement assignment to the post-step state changes nothing. -/
theorem post_step_boundary_invariant :
    ∀ (ny nx : ℕ) (dt sq Tb Tt : ℚ) (os : OpSet ny nx) (s s₁ : SimState ny nx),
      2 ≤ ny →
      step dt sq Tb Tt os s = some s₁ →
      (∀ k : Fin (nx * ny), k.val % ny = 0 → s₁.T k = Tb) ∧
      (∀ k : Fin (nx * ny), k.val % ny = ny - 1 → s₁.T k = Tt) ∧
      (∀ k : Fin (nx * ny),
        k.val % ny = 0 ∨ k.val % ny = ny - 1 ∨ k.val < ny ∨ nx * ny - ny ≤ k.val →
        s₁.Psi k = 0) ∧
      enforceT Tb Tt s₁.T = s₁.T ∧ enforcePsi s₁.Psi = s₁.Psi := by
  intro ny nx dt sq Tb Tt os s s₁ hny h
  rw [step] at h
  rcases Option.bind_eq_some.mp h with ⟨Tsol, _, h2⟩
  rcases Option.bind_eq_some.mp h2 with ⟨Psol, _, h3⟩
  obtain rfl : (⟨enforceT Tb Tt Tsol, enforcePsi Psol⟩ : SimState ny nx) = s₁ :=
    Option.some.inj h3
  refine ⟨?_, ?_, ?_, enforceT_idem Tb Tt Tsol, enforcePsi_idem Psol⟩
  · intro k hk
    show enforceT Tb Tt Tsol k = Tb
    rw [enforceT]
    rw [hk, if_neg (by omega), if_pos rfl]
  · intro k hk
    show enforceT Tb Tt Tsol k = Tt
    rw [enforceT, if_pos hk]
  · intro k hk
    show enforcePsi Psol k = 0
    rw [enforcePsi]
    exact if_pos hk

/-- C8: a singular Crank-Nicolson matrix makes the temperature solve fail,
the failure is propagated by the step, and the whole remaining run aborts —
no retry, and stepping never continues past an unsolved temperature
system. -/
theorem singular_temperature_matrix_aborts_run :
    ∀ (ny nx : ℕ) (dt sq Tb Tt : ℚ) (os : OpSet ny nx) (s : SimState ny nx) (n : ℕ),
      (tempMatrix dt os s.Psi).det = 0 →
      stepT dt os s.Psi s.T = none ∧
      step dt sq Tb Tt os s = none ∧
      run dt sq Tb Tt os (n + 1) s = none := by
  intro ny nx dt sq Tb Tt os s n h
  have h1 : stepT dt os s.Psi s.T = none := solveLin_det_zero _ h
  have h2 : step dt sq Tb Tt os s = none := by
    rw [step, h1]
    rfl
  refine ⟨h1, h2, ?_⟩
  simp only [run, h2, Option.none_bind]

/-- C5: the flag-guarded factorization paths and the one-shot solve paths
are equivalent: with identical inputs, the loop body computes the same next
state for every combination of the two `useSuperLUFactorization` flags as
the plain step, and the whole run agrees; in particular reusing the
factorization of the time-invariant `dlOpPsi` computed before the loop
yields the same stream function as solving `dlOpPsi` fresh each step. -/
theorem factorization_flags_equivalent :
    ∀ (ny nx : ℕ) (useF1 useF2 : Bool) (dt sq Tb Tt : ℚ) (os : OpSet ny nx)
      (s : SimState ny nx) (n : ℕ) (s0 : SimState ny nx),
      stepFlags useF1 useF2 dt sq Tb Tt os (factorized os.dlOpPsi) s =
        step dt sq Tb Tt os s ∧
      runFlags useF1 useF2 dt sq Tb Tt os n s0 = run dt sq Tb Tt os n s0 := by
  intro ny nx useF1 useF2 dt sq Tb Tt os s n s0
  have hstep : ∀ s : SimState ny nx,
      stepFlags useF1 useF2 dt sq Tb Tt os (factorized os.dlOpPsi) s =
        step dt sq Tb Tt os s := by
    intro s
    cases useF1 <;> cases useF2 <;> rfl
  refine ⟨hstep s, ?_⟩
  induction n generalizing s0 with
  | zero => rfl
  | succ m ih =>
    simp only [runFlags, run, hstep s0]
    cases hs : step dt sq Tb Tt os s0 with
    | none => rfl
    | some s' => exact ih s'

/-! ### Concrete witnesses for the step-relation claims

A 2-row, 1-column grid with trivial operators (identity stream-function
Laplacian) makes every hypothesis above satisfiable. -/

/-- All-zero operator bundle except an identity stream-function Laplacian. -/
def opsW : OpSet 2 1 where
  dxOpTemp := 0
  rhsDxOpTemp := 0
  dyOpTemp := 0
  rhsDyOpTemp := 0
  dlOpTemp := 0
  rhsDlOpTemp := 0
  dxOpPsi := 0
  dyOpPsi := 0
  dlOpPsi := 1

theorem constructC_opsW : constructC opsW 0 = (0, 0) := by
  simp [constructC, opsW]

theorem stepT_opsW (dt : ℚ) : stepT dt opsW 0 0 = some 0 := by
  rw [stepT, tempMatrix, tempRhs, constructC_opsW]
  simpa using solveLin_one (0 : Fin (1 * 2) → ℚ)

theorem enforcePsi_zero {ny nx : ℕ} : @enforcePsi ny nx 0 = 0 := by
  funext k
  simp [enforcePsi]

theorem step_opsW (dt sq Tb Tt : ℚ) :
    step dt sq Tb Tt opsW ⟨0, 0⟩ = some ⟨enforceT Tb Tt 0, 0⟩ := by
  rw [step]
  have hT : stepT dt opsW (SimState.Psi ⟨0, 0⟩) (SimState.T ⟨0, 0⟩) = some 0 :=
    stepT_opsW dt
  rw [hT, Option.some_bind]
  have hP : stepPsi sq opsW (enforceT Tb Tt 0) = some 0 := by
    have hrhs : psiRhs sq opsW (enforceT Tb Tt 0) = 0 := by
      simp [psiRhs, opsW]
    rw [stepPsi, hrhs]
    exact (solveLin_one 0).trans rfl
  rw [hP, Option.some_bind, enforcePsi_zero]

/-- The post-step state reached from the zero state with `opsW`. -/
def stateW : SimState 2 1 :=
  ⟨enforceT 1 0 0, 0⟩

/-- Witness for C1: the hypotheses of the Crank-Nicolson theorem are
satisfiable on a concrete instance. -/
theorem temperature_solve_crank_nicolson_witness :
    (1 + ((1 : ℚ) / 100 / 2) • (constructC opsW 0).1).mulVec 0 =
      ((1 : ℚ) / 100) • (constructC opsW 0).2 +
        (1 - ((1 : ℚ) / 100 / 2) • (constructC opsW 0).1).mulVec 0 :=
  temperature_solve_satisfies_crank_nicolson 2 1 (1 / 100) opsW 0 0 0
    (stepT_opsW (1 / 100))

/-- Witness for C2 on the same concrete instance. -/
theorem stream_solve_poisson_witness :
    ∃ Psol, opsW.dlOpPsi.mulVec Psol =
        (-(7 : ℚ)) • (psiElim 2 1).mulVec
          (opsW.dxOpTemp.mulVec stateW.T - opsW.rhsDxOpTemp)
      ∧ stateW.Psi = enforcePsi Psol :=
  stream_solve_satisfies_poisson 2 1 (1 / 100) 7 1 0 opsW ⟨0, 0⟩ stateW
    (step_opsW (1 / 100) 7 1 0)

/-- Witness for C3 on the same concrete instance. -/
theorem post_step_boundary_invariant_witness :
    2 ≤ 2 ∧
    ((∀ k : Fin (1 * 2), k.val % 2 = 0 → stateW.T k = 1) ∧
      (∀ k : Fin (1 * 2), k.val % 2 = 2 - 1 → stateW.T k = 0) ∧
      (∀ k : Fin (1 * 2),
        k.val % 2 = 0 ∨ k.val % 2 = 2 - 1 ∨ k.val < 2 ∨ 1 * 2 - 2 ≤ k.val →
        stateW.Psi k = 0) ∧
      enforceT 1 0 stateW.T = stateW.T ∧ enforcePsi stateW.Psi = stateW.Psi) :=
  ⟨le_refl 2,
    post_step_boundary_invariant 2 1 (1 / 100) 7 1 0 opsW ⟨0, 0⟩ stateW
      (le_refl 2) (step_opsW (1 / 100) 7 1 0)⟩

/-- Operator bundle making the Crank-Nicolson matrix exactly singular for
`dt = 1/100`: the temperature Laplacian is `200·I`, so
`I + (dt/2)·C = I - I = 0`. -/
def opsSing : OpSet 2 1 where
  dxOpTemp := 0
  rhsDxOpTemp := 0
  dyOpTemp := 0
  rhsDyOpTemp := 0
  dlOpTemp := (200 : ℚ) • 1
  rhsDlOpTemp := 0
  dxOpPsi := 0
  dyOpPsi := 0
  dlOpPsi := 0

theorem tempMatrix_opsSing : tempMatrix (1 / 100 : ℚ) opsSing 0 = 0 := by
  have hC : (constructC opsSing 0).1 =
      -((200 : ℚ) • (1 : Matrix (Fin (1 * 2)) (Fin (1 * 2)) ℚ)) := by
    simp [constructC, opsSing]
  rw [tempMatrix, hC, smul_neg, smul_smul]
  norm_num

/-- Witness for C8: a concrete singular system, with the resulting abort. -/
theorem singular_temperature_matrix_witness :
    (tempMatrix (1 / 100 : ℚ) opsSing (SimState.Psi ⟨0, 0⟩)).det = 0 ∧
    (stepT (1 / 100 : ℚ) opsSing (SimState.Psi ⟨0, 0⟩) (SimState.T ⟨0, 0⟩) = none ∧
      step (1 / 100) 7 1 0 opsSing ⟨0, 0⟩ = none ∧
      run (1 / 100) 7 1 0 opsSing (0 + 1) ⟨0, 0⟩ = none) :=
  have hdet : (tempMatrix (1 / 100 : ℚ) opsSing
      (SimState.Psi (⟨0, 0⟩ : SimState 2 1))).det = 0 := by
    rw [show SimState.Psi (⟨0, 0⟩ : SimState 2 1) = 0 from rfl, tempMatrix_opsSing]
    exact Matrix.det_zero ⟨⟨0, by omega⟩⟩
  ⟨hdet, singular_temperature_matrix_aborts_run 2 1 (1 / 100) 7 1 0 opsSing ⟨0, 0⟩ 0 hdet⟩

/-! ### Spec-modelled operators on the configured 20 × 40 grid

The `operators` module is not among the available sources, so the operator
matrices are modelled from the spec: centered second-order stencils on
interior rows; temperature Dirichlet rows (top/bottom) replaced by
identity rows with the boundary value in the correction vector; the
zero-flux Neumann sides (left/right) treated by one-sided differences for
the first derivative and mirrored stencils for the Laplacian, with zero
correction entries since the prescribed fluxes are zero; the interior-only
stream-function Laplacian with identity boundary rows, zero correction and
the coupling into boundary unknowns removed.  Grid indexing in vector
form: `y = k % 20` is the vertical position, `x = k / 20` the column. -/

/-- Extension of a vertical profile to an `x`-uniform field on the
20 × 40 grid (column-major vector form). -/
def extY (u : Fin 20 → ℚ) : Fin (40 * 20) → ℚ :=
  fun k => u ⟨k.val % 20, by omega⟩

/-- Summing an indicator row entry against a vector picks the addressed
entry. -/
theorem sum_ite_eq_val {M : ℕ} {m : ℕ} (h : m < M) (c : ℚ) (v : Fin M → ℚ) :
    (∑ j : Fin M, (if j.val = m then c else 0) * v j) = c * v ⟨m, h⟩ := by
  rw [Finset.sum_eq_single (⟨m, h⟩ : Fin M)]
  · rw [if_pos rfl]
  · intro b _ hb
    rw [if_neg, zero_mul]
    intro hbv
    exact hb (Fin.ext hbv)
  · intro hmem
    exact absurd (Finset.mem_univ _) hmem

/-- Variant for entries addressed at an offset below the row index. -/
theorem sum_ite_add_val {M : ℕ} {t m : ℕ} (ht : t ≤ m) (h : m - t < M) (c : ℚ)
    (v : Fin M → ℚ) :
    (∑ j : Fin M, (if j.val + t = m then c else 0) * v j) = c * v ⟨m - t, h⟩ := by
  rw [Finset.sum_eq_single (⟨m - t, h⟩ : Fin M)]
  · rw [if_pos (show (⟨m - t, h⟩ : Fin M).val + t = m from by show m - t + t = m; omega)]
  · intro b _ hb
    rw [if_neg, zero_mul]
    intro hbv
    refine hb (Fin.ext ?_)
    show b.val = m - t
    omega
  · intro hmem
    exact absurd (Finset.mem_univ _) hmem

/-- Evaluation of a profile at equal indices with different bound proofs. -/
theorem uval_congr {n : ℕ} (u : Fin n → ℚ) {a b : ℕ} {ha : a < n} {hb : b < n}
    (h : a = b) : u ⟨a, ha⟩ = u ⟨b, hb⟩ := by
  subst h
  rfl

/-- Modelled from the spec: `operators.dxOpTemp` with zero-flux Neumann
sides — central difference `1/(2·dx)` on interior columns, one-sided
differences on the left/right boundary columns. -/
def dxOpTempM : Matrix (Fin (40 * 20)) (Fin (40 * 20)) ℚ :=
  Matrix.of fun k j =>
    if k.val / 20 = 0 then
      (if j.val = k.val + 20 then 1 / config.dx else 0) +
        (if j.val = k.val then -(1 / config.dx) else 0)
    else if k.val / 20 = 39 then
      (if j.val = k.val then 1 / config.dx else 0) +
        (if j.val + 20 = k.val then -(1 / config.dx) else 0)
    else
      (if j.val = k.val + 20 then 1 / (2 * config.dx) else 0) +
        (if j.val + 20 = k.val then -(1 / (2 * config.dx)) else 0)

/-- Modelled from the spec: `operators.dyOpTemp` with Dirichlet top/bottom
rows — identity rows at the vertical boundaries, central differences on
interior rows. -/
def dyOpTempM : Matrix (Fin (40 * 20)) (Fin (40 * 20)) ℚ :=
  Matrix.of fun k j =>
    if k.val % 20 = 0 ∨ k.val % 20 = 19 then (if j.val = k.val then 1 else 0)
    else
      (if j.val = k.val + 1 then 1 / (2 * config.dy) else 0) +
        (if j.val + 1 = k.val then -(1 / (2 * config.dy)) else 0)

/-- Modelled from the spec: `operators.dlOpTemp`, the temperature
Laplacian — identity rows at Dirichlet top/bottom rows, vertical 3-point
stencil plus horizontal 3-point stencil on interior rows, with the
horizontal part mirrored (`2/dx²` coupling) at the zero-flux left/right
columns. -/
def dlOpTempM : Matrix (Fin (40 * 20)) (Fin (40 * 20)) ℚ :=
  Matrix.of fun k j =>
    if k.val % 20 = 0 ∨ k.val % 20 = 19 then (if j.val = k.val then 1 else 0)
    else
      ((if j.val = k.val + 1 then 1 / config.dy ^ 2 else 0) +
        (if j.val + 1 = k.val then 1 / config.dy ^ 2 else 0) +
        (if j.val = k.val then -(2 / config.dy ^ 2) else 0)) +
      (if k.val / 20 = 0 then
        (if j.val = k.val + 20 then 2 / config.dx ^ 2 else 0) +
          (if j.val = k.val then -(2 / config.dx ^ 2) else 0)
      else if k.val / 20 = 39 then
        (if j.val + 20 = k.val then 2 / config.dx ^ 2 else 0) +
          (if j.val = k.val then -(2 / config.dx ^ 2) else 0)
      else
        (if j.val = k.val + 20 then 1 / config.dx ^ 2 else 0) +
          (if j.val + 20 = k.val then 1 / config.dx ^ 2 else 0) +
          (if j.val = k.val then -(2 / config.dx ^ 2) else 0))

/-- The common correction-vector profile of the Dirichlet temperature
operators: the boundary value at the two Dirichlet rows, zero elsewhere. -/
def rhsRed (Tb Tt : ℚ) : Fin 20 → ℚ :=
  fun y => if y.val = 0 then Tb else if y.val = 19 then Tt else 0

/-- Modelled from the spec: `operators.dyOp`, the plain first `y`
derivative used for the horizontal velocity — central differences inside,
one-sided at the vertical boundaries. -/
def dyOpPsiM : Matrix (Fin (40 * 20)) (Fin (40 * 20)) ℚ :=
  Matrix.of fun k j =>
    if k.val % 20 = 0 then
      (if j.val = k.val + 1 then 1 / config.dy else 0) +
        (if j.val = k.val then -(1 / config.dy) else 0)
    else if k.val % 20 = 19 then
      (if j.val = k.val then 1 / config.dy else 0) +
        (if j.val + 1 = k.val then -(1 / config.dy) else 0)
    else
      (if j.val = k.val + 1 then 1 / (2 * config.dy) else 0) +
        (if j.val + 1 = k.val then -(1 / (2 * config.dy)) else 0)

/-- Modelled from the spec: `operators.dxOpStream`, the plain first `x`
derivative used for the vertical velocity — central differences inside,
one-sided at the horizontal boundaries. -/
def dxOpPsiM : Matrix (Fin (40 * 20)) (Fin (40 * 20)) ℚ :=
  Matrix.of fun k j =>
    if k.val / 20 = 0 then
      (if j.val = k.val + 20 then 1 / config.dx else 0) +
        (if j.val = k.val then -(1 / config.dx) else 0)
    else if k.val / 20 = 39 then
      (if j.val = k.val then 1 / config.dx else 0) +
        (if j.val + 20 = k.val then -(1 / config.dx) else 0)
    else
      (if j.val = k.val + 20 then 1 / (2 * config.dx) else 0) +
        (if j.val + 20 = k.val then -(1 / (2 * config.dx)) else 0)

/-- Modelled from the spec: `operators.dlOpStreamMod`, the interior-only
stream-function Laplacian — identity rows on all four boundary edges,
5-point stencil on interior rows with the coupling into boundary unknowns
zeroed. -/
def dlOpPsiM : Matrix (Fin (40 * 20)) (Fin (40 * 20)) ℚ :=
  Matrix.of fun k j =>
    if k.val < 20 ∨ 40 * 20 - 20 ≤ k.val ∨ k.val % 20 = 0 ∨ k.val % 20 = 19 then
      (if j.val = k.val then 1 else 0)
    else if j.val < 20 ∨ 40 * 20 - 20 ≤ j.val ∨ j.val % 20 = 0 ∨ j.val % 20 = 19 then 0
    else
      (if j.val = k.val + 1 then 1 / config.dy ^ 2 else 0) +
        (if j.val + 1 = k.val then 1 / config.dy ^ 2 else 0) +
        (if j.val = k.val + 20 then 1 / config.dx ^ 2 else 0) +
        (if j.val + 20 = k.val then 1 / config.dx ^ 2 else 0) +
        (if j.val = k.val then -(2 / config.dy ^ 2) - 2 / config.dx ^ 2 else 0)

/-- The spec-modelled operator bundle of the run, for Dirichlet
temperatures `Tb` (bottom) and `Tt` (top). -/
def theOps (Tb Tt : ℚ) : OpSet 20 40 where
  dxOpTemp := dxOpTempM
  rhsDxOpTemp := 0
  dyOpTemp := dyOpTempM
  rhsDyOpTemp := extY (rhsRed Tb Tt)
  dlOpTemp := dlOpTempM
  rhsDlOpTemp := extY (rhsRed Tb Tt)
  dxOpPsi := dxOpPsiM
  dyOpPsi := dyOpPsiM
  dlOpPsi := dlOpPsiM

/-- The reduction of the temperature Laplacian to a vertical profile: on
`x`-uniform fields the horizontal couplings cancel, leaving the vertical
3-point stencil with identity Dirichlet rows. -/
def LredT : Matrix (Fin 20) (Fin 20) ℚ :=
  Matrix.of fun y z =>
    if y.val = 0 ∨ y.val = 19 then (if z.val = y.val then 1 else 0)
    else
      (if z.val = y.val + 1 then 1 / config.dy ^ 2 else 0) +
        (if z.val + 1 = y.val then 1 / config.dy ^ 2 else 0) +
        (if z.val = y.val then -(2 / config.dy ^ 2) else 0)

theorem extY_add (a b : Fin 20 → ℚ) : extY (a + b) = extY a + extY b :=
  rfl

theorem extY_neg (a : Fin 20 → ℚ) : extY (-a) = -extY a :=
  rfl

theorem extY_smul (c : ℚ) (a : Fin 20 → ℚ) : extY (c • a) = c • extY a :=
  rfl

theorem extY_zero : extY 0 = 0 :=
  rfl

/-- The first `x` derivative annihilates `x`-uniform fields. -/
theorem dxOpTempM_mulVec_extY (u : Fin 20 → ℚ) :
    dxOpTempM.mulVec (extY u) = 0 := by
  funext k
  have hk := k.isLt
  show (∑ j, dxOpTempM k j * extY u j) = 0
  simp only [dxOpTempM, Matrix.of_apply]
  by_cases h0 : k.val / 20 = 0
  · simp only [if_pos h0, add_mul]
    rw [Finset.sum_add_distrib,
      sum_ite_eq_val (show k.val + 20 < 40 * 20 by omega),
      sum_ite_eq_val (show k.val < 40 * 20 by omega)]
    simp only [extY]
    rw [uval_congr u (show (k.val + 20) % 20 = k.val % 20 by omega)]
    ring
  by_cases h39 : k.val / 20 = 39
  · simp only [if_neg h0, if_pos h39, add_mul]
    rw [Finset.sum_add_distrib,
      sum_ite_eq_val (show k.val < 40 * 20 by omega),
      sum_ite_add_val (show 20 ≤ k.val by omega) (show k.val - 20 < 40 * 20 by omega)]
    simp only [extY]
    rw [uval_congr u (show (k.val - 20) % 20 = k.val % 20 by omega)]
    ring
  · simp only [if_neg h0, if_neg h39, add_mul]
    rw [Finset.sum_add_distrib,
      sum_ite_eq_val (show k.val + 20 < 40 * 20 by omega),
      sum_ite_add_val (show 20 ≤ k.val by omega) (show k.val - 20 < 40 * 20 by omega)]
    simp only [extY]
    rw [uval_congr u (show (k.val + 20) % 20 = k.val % 20 by omega),
      uval_congr u (show (k.val - 20) % 20 = k.val % 20 by omega)]
    · ring
    all_goals omega

theorem extY_sub (a b : Fin 20 → ℚ) : extY (a - b) = extY a - extY b :=
  rfl

/-- The temperature Laplacian maps `x`-uniform fields to `x`-uniform
fields, acting as its vertical reduction `LredT` on the profile. -/
theorem dlOpTempM_mulVec_extY (u : Fin 20 → ℚ) :
    dlOpTempM.mulVec (extY u) = extY (LredT.mulVec u) := by
  funext k
  have hk := k.isLt
  have hklt : k.val % 20 < 20 := by omega
  show (∑ j, dlOpTempM k j * extY u j) = extY (LredT.mulVec u) k
  have hRHS : extY (LredT.mulVec u) k =
      ∑ z : Fin 20, LredT ⟨k.val % 20, hklt⟩ z * u z := rfl
  rw [hRHS]
  simp only [dlOpTempM, LredT, Matrix.of_apply]
  by_cases hd : k.val % 20 = 0 ∨ k.val % 20 = 19
  · simp only [if_pos hd]
    rw [sum_ite_eq_val hk, sum_ite_eq_val hklt]
    simp only [extY]
  · simp only [if_neg hd]
    by_cases hx0 : k.val / 20 = 0
    · simp only [if_pos hx0, add_mul, Finset.sum_add_distrib]
      rw [sum_ite_eq_val (show k.val + 1 < 40 * 20 by omega),
        sum_ite_add_val (show 1 ≤ k.val by omega) (show k.val - 1 < 40 * 20 by omega),
        sum_ite_eq_val hk,
        sum_ite_eq_val (show k.val + 20 < 40 * 20 by omega),
        sum_ite_eq_val hk,
        sum_ite_eq_val (show k.val % 20 + 1 < 20 by omega),
        sum_ite_add_val (show 1 ≤ k.val % 20 by omega) (show k.val % 20 - 1 < 20 by omega),
        sum_ite_eq_val hklt]
      simp only [extY]
      rw [uval_congr u (show (k.val + 1) % 20 = k.val % 20 + 1 by omega),
        uval_congr u (show (k.val - 1) % 20 = k.val % 20 - 1 by omega),
        uval_congr u (show (k.val + 20) % 20 = k.val % 20 by omega)]
      ring
    by_cases hx39 : k.val / 20 = 39
    · simp only [if_neg hx0, if_pos hx39, add_mul, Finset.sum_add_distrib]
      rw [sum_ite_eq_val (show k.val + 1 < 40 * 20 by omega),
        sum_ite_add_val (show 1 ≤ k.val by omega) (show k.val - 1 < 40 * 20 by omega),
        sum_ite_eq_val hk,
        sum_ite_add_val (show 20 ≤ k.val by omega) (show k.val - 20 < 40 * 20 by omega),
        sum_ite_eq_val hk,
        sum_ite_eq_val (show k.val % 20 + 1 < 20 by omega),
        sum_ite_add_val (show 1 ≤ k.val % 20 by omega) (show k.val % 20 - 1 < 20 by omega),
        sum_ite_eq_val hklt]
      simp only [extY]
      rw [uval_congr u (show (k.val + 1) % 20 = k.val % 20 + 1 by omega),
        uval_congr u (show (k.val - 1) % 20 = k.val % 20 - 1 by omega),
        uval_congr u (show (k.val - 20) % 20 = k.val % 20 by omega)]
      ring
    · simp only [if_neg hx0, if_neg hx39, add_mul, Finset.sum_add_distrib]
      rw [sum_ite_eq_val (show k.val + 1 < 40 * 20 by omega),
        sum_ite_add_val (show 1 ≤ k.val by omega) (show k.val - 1 < 40 * 20 by omega),
        sum_ite_eq_val hk,
        sum_ite_eq_val (show k.val + 20 < 40 * 20 by omega),
        sum_ite_add_val (show 20 ≤ k.val by omega) (show k.val - 20 < 40 * 20 by omega),
        sum_ite_eq_val hk,
        sum_ite_eq_val (show k.val % 20 + 1 < 20 by omega),
        sum_ite_add_val (show 1 ≤ k.val % 20 by omega) (show k.val % 20 - 1 < 20 by omega),
        sum_ite_eq_val hklt]
      simp only [extY]
      rw [uval_congr u (show (k.val + 1) % 20 = k.val % 20 + 1 by omega),
        uval_congr u (show (k.val - 1) % 20 = k.val % 20 - 1 by omega),
        uval_congr u (show (k.val + 20) % 20 = k.val % 20 by omega),
        uval_congr u (show (k.val - 20) % 20 = k.val % 20 by omega)]
      ring

theorem constructC_theOps_fst (Tb Tt : ℚ) :
    (constructC (theOps Tb Tt) 0).1 = -dlOpTempM := by
  simp only [constructC]
  rw [Matrix.mulVec_zero, Matrix.mulVec_zero, neg_zero,
    show (Matrix.diagonal (0 : Fin (40 * 20) → ℚ)) = 0 from Matrix.diagonal_zero,
    Matrix.zero_mul, Matrix.zero_mul, zero_add, zero_sub]
  rfl

theorem constructC_theOps_snd (Tb Tt : ℚ) :
    (constructC (theOps Tb Tt) 0).2 = -extY (rhsRed Tb Tt) := by
  simp only [constructC]
  rw [Matrix.mulVec_zero, Matrix.mulVec_zero, neg_zero, zero_mul, zero_mul,
    zero_add, zero_sub]
  rfl

/-- With a vanishing stream function, the Crank-Nicolson matrix acts on
`x`-uniform fields as its vertical reduction `I - (dt/2)·LredT`. -/
theorem tempMatrix_theOps_mulVec_extY (dtv Tb Tt : ℚ) (u : Fin 20 → ℚ) :
    (tempMatrix dtv (theOps Tb Tt) 0).mulVec (extY u) =
      extY ((1 - (dtv / 2) • LredT).mulVec u) := by
  rw [tempMatrix, constructC_theOps_fst, Matrix.add_mulVec, Matrix.one_mulVec,
    Matrix.smul_mulVec_assoc, Matrix.neg_mulVec, dlOpTempM_mulVec_extY,
    Matrix.sub_mulVec, Matrix.one_mulVec, Matrix.smul_mulVec_assoc,
    extY_sub, extY_smul, smul_neg, ← sub_eq_add_neg]

/-- With a vanishing stream function, the Crank-Nicolson right-hand side
of an `x`-uniform temperature is `x`-uniform. -/
theorem tempRhs_theOps_extY (dtv Tb Tt : ℚ) (u : Fin 20 → ℚ) :
    tempRhs dtv (theOps Tb Tt) 0 (extY u) =
      extY (dtv • (-(rhsRed Tb Tt)) + (1 + (dtv / 2) • LredT).mulVec u) := by
  rw [tempRhs, constructC_theOps_fst, constructC_theOps_snd,
    Matrix.sub_mulVec, Matrix.one_mulVec, Matrix.smul_mulVec_assoc,
    Matrix.neg_mulVec, dlOpTempM_mulVec_extY,
    Matrix.add_mulVec, Matrix.one_mulVec, Matrix.smul_mulVec_assoc,
    extY_add, extY_smul, extY_neg, extY_add, extY_smul,
    smul_neg, smul_neg, sub_neg_eq_add]

/-- Nonsingularity of the full Crank-Nicolson matrix transfers to its
vertical reduction. -/
theorem reduced_det_ne_zero {dtv Tb Tt : ℚ}
    (h : (tempMatrix dtv (theOps Tb Tt) 0).det ≠ 0) :
    (1 - (dtv / 2) • LredT).det ≠ 0 := by
  intro h0
  obtain ⟨w, hw0, hww⟩ := Matrix.exists_mulVec_eq_zero_iff.mpr h0
  refine h (Matrix.exists_mulVec_eq_zero_iff.mp ⟨extY w, ?_, ?_⟩)
  · intro hz
    apply hw0
    funext y
    have hy := congrFun hz ⟨y.val, by omega⟩
    rw [Pi.zero_apply] at hy
    have e : extY w ⟨y.val, by omega⟩ = w y := uval_congr w (Nat.mod_eq_of_lt y.isLt)
    rw [Pi.zero_apply]
    exact e.symm.trans hy
  · rw [tempMatrix_theOps_mulVec_extY, hww, extY_zero]

/-- One step of the run with the spec-modelled operators preserves
`x`-uniform temperature and vanishing stream function. -/
theorem step_theOps_preserves (dtv sq Tb Tt : ℚ) (u : Fin 20 → ℚ)
    (s₁ : SimState 20 40)
    (h : step dtv sq Tb Tt (theOps Tb Tt) ⟨extY u, 0⟩ = some s₁) :
    (∃ w, s₁.T = extY w) ∧ s₁.Psi = 0 := by
  rw [step] at h
  rcases Option.bind_eq_some.mp h with ⟨Tsol, hT, h2⟩
  rcases Option.bind_eq_some.mp h2 with ⟨Psol, hP, h3⟩
  obtain rfl : (⟨enforceT Tb Tt Tsol, enforcePsi Psol⟩ : SimState 20 40) = s₁ :=
    Option.some.inj h3
  have hdet : (tempMatrix dtv (theOps Tb Tt) 0).det ≠ 0 := solveLin_det_ne hT
  have hdetr : (1 - (dtv / 2) • LredT).det ≠ 0 := reduced_det_ne_zero hdet
  obtain ⟨w, hw⟩ : ∃ w, solveLin (1 - (dtv / 2) • LredT)
      (dtv • (-(rhsRed Tb Tt)) + (1 + (dtv / 2) • LredT).mulVec u) = some w :=
    ⟨_, solveLin_of_det_ne _ hdetr⟩
  have hAw : (tempMatrix dtv (theOps Tb Tt) 0).mulVec (extY w) =
      tempRhs dtv (theOps Tb Tt) 0 (extY u) := by
    rw [tempMatrix_theOps_mulVec_extY, solveLin_sound hw, tempRhs_theOps_extY]
  have hTsol : extY w = Tsol := solveLin_unique hT hAw
  subst hTsol
  have henf : @enforceT 20 40 Tb Tt (extY w) =
      extY (fun y => if y.val = 19 then Tt else if y.val = 0 then Tb else w y) := by
    funext k
    simp only [enforceT, extY]
  have hrhs : psiRhs sq (theOps Tb Tt) (enforceT Tb Tt (extY w)) = 0 := by
    rw [henf, psiRhs, show (theOps Tb Tt).dxOpTemp = dxOpTempM from rfl,
      dxOpTempM_mulVec_extY, show (theOps Tb Tt).rhsDxOpTemp = 0 from rfl]
    simp
  have hPsol : Psol = 0 := by
    rw [stepPsi, hrhs] at hP
    exact solveLin_zero_rhs hP
  constructor
  · exact ⟨_, henf⟩
  · show enforcePsi Psol = 0
    rw [hPsol, enforcePsi_zero]

/-- The whole run with the spec-modelled operators preserves `x`-uniform
temperature and vanishing stream function. -/
theorem run_theOps_preserves (dtv sq Tb Tt : ℚ) :
    ∀ (n : ℕ) (u : Fin 20 → ℚ) (s₁ : SimState 20 40),
      run dtv sq Tb Tt (theOps Tb Tt) n ⟨extY u, 0⟩ = some s₁ →
      (∃ w, s₁.T = extY w) ∧ s₁.Psi = 0 := by
  intro n
  induction n with
  | zero =>
    intro u s₁ h
    obtain rfl : (⟨extY u, 0⟩ : SimState 20 40) = s₁ := Option.some.inj h
    exact ⟨⟨u, rfl⟩, rfl⟩
  | succ m ih =>
    intro u s₁ h
    simp only [run] at h
    rcases Option.bind_eq_some.mp h with ⟨s', hstep, hrun⟩
    obtain ⟨T', P'⟩ := s'
    obtain ⟨⟨w, hw⟩, hpsi⟩ := step_theOps_preserves dtv sq Tb Tt u ⟨T', P'⟩ hstep
    simp only at hw hpsi
    subst hw
    subst hpsi
    exact ih w s₁ hrun

/-- Modelled from the spec: the initial temperature of the zero-gradient
steady-state check — `numpy.linspace(Tbottom, Ttop, ny)` repeated over all
columns, without the localized perturbation, vectorized. -/
def startTLin (Tb Tt : ℚ) : Fin (40 * 20) → ℚ :=
  @fieldToVec 20 40 (fun y _ => Tb + (Tt - Tb) * y.val / ((20 : ℚ) - 1))

theorem startTLin_extY (Tb Tt : ℚ) :
    startTLin Tb Tt = extY (fun y => Tb + (Tt - Tb) * y.val / ((20 : ℚ) - 1)) :=
  rfl

/-- C7: with equal top and bottom Dirichlet temperatures, starting from
the zero stream function and the linear temperature interpolation between
the (equal) endpoint values, every state reached by the integrator still
has an exactly zero stream function — no flow develops without a
temperature gradient. -/
theorem zero_temperature_gradient_no_flow :
    ∀ (dtv sq Tb Tt : ℚ), Tb = Tt →
    ∀ (n : ℕ) (s₁ : SimState 20 40),
      run dtv sq Tb Tt (theOps Tb Tt) n ⟨startTLin Tb Tt, 0⟩ = some s₁ →
      s₁.Psi = 0 := by
  intro dtv sq Tb Tt _ n s₁ h
  rw [startTLin_extY] at h
  exact (run_theOps_preserves dtv sq Tb Tt n _ s₁ h).2

/-- Witness for C7: its hypotheses are satisfiable (equal boundary
temperatures, with the unstepped initial state). -/
theorem zero_temperature_gradient_witness :
    (1 : ℚ) = 1 ∧ SimState.Psi (⟨startTLin 1 1, 0⟩ : SimState 20 40) = 0 :=
  ⟨rfl, zero_temperature_gradient_no_flow config.dt sqrtRa 1 1 rfl 0
    ⟨startTLin 1 1, 0⟩ rfl⟩

end RayleighBenard
